import Mathlib

/-!
Verification development for the `http-response-compression` middleware.

The Rust sources are shallowly embedded:
strings are modelled as `List Char`; the `f32` quality values of the
Accept-Encoding parser are modelled as exact rationals (`ℚ`), with the
float literal parser modelled on the finite-decimal fragment of Rust's
float grammar (optional sign, digits, optional fraction, optional
exponent; the special values inf/NaN are outside the model);
the `http::HeaderMap` is modelled as an ordered association list of
lowercase header names to values; the streaming body and the boxed
encoder are modelled as explicit state machines, with the unbounded
synchronous loops of `body.rs` given an explicit fuel parameter
(a result of `none` means the loop has not terminated within the given
fuel, for any fuel).
-/

/-- Lowercases one ASCII character, as Rust's `eq_ignore_ascii_case` does. -/
def asciiLower (c : Char) : Char :=
  if 'A' ≤ c ∧ c ≤ 'Z' then Char.ofNat (c.toNat + 32) else c

/-- Models Rust's `str::eq_ignore_ascii_case` on character lists. -/
def eqIgnoreAsciiCase (a b : List Char) : Bool :=
  a.map asciiLower = b.map asciiLower

/-- Whitespace recognizer backing the model of Rust's `str::trim`
(restricted to the ASCII whitespace characters). -/
def isWS (c : Char) : Bool :=
  c = ' ' ∨ c = '\t' ∨ c = '\n' ∨ c = '\r'

/-- Models Rust's `str::trim` on character lists. -/
def trimL (s : List Char) : List Char :=
  ((s.dropWhile isWS).reverse.dropWhile isWS).reverse

/-- Models Rust's `str::split(sep)` on character lists: an empty input
yields one empty segment, and separators at the ends yield empty segments. -/
def splitChar (sep : Char) : List Char → List (List Char)
  | [] => [[]]
  | c :: rest =>
    if c = sep then [] :: splitChar sep rest
    else
      match splitChar sep rest with
      | [] => [[c]]
      | g :: gs => (c :: g) :: gs

/-- Models Rust's `str::splitn(2, sep)`: the part before the first
separator, and, when a separator occurs, everything after it. -/
def splitOnceChar (sep : Char) : List Char → List Char × Option (List Char)
  | [] => ([], none)
  | c :: rest =>
    if c = sep then ([], some rest)
    else
      match splitOnceChar sep rest with
      | (a, b) => (c :: a, b)

/-- Prefix test modelling Rust's `str::starts_with`. -/
def startsW (s pre : List Char) : Bool :=
  pre.isPrefixOf s

/-- ASCII digit recognizer. -/
def isDigitC (c : Char) : Bool :=
  '0' ≤ c ∧ c ≤ '9'

/-- Numeric value of a digit string (most significant first). -/
def digitsVal (l : List Char) : Nat :=
  l.foldl (fun a c => a * 10 + (c.toNat - 48)) 0

/-- Splits an optional leading sign, returning the sign as a rational. -/
def parseSign : List Char → ℚ × List Char
  | '+' :: r => (1, r)
  | '-' :: r => (-1, r)
  | r => (1, r)

/-- Models the finite-decimal fragment of Rust's `f32::from_str` with exact
rational values: optional sign, then a significand holding at least one
digit (`D+ [. D*]` or `. D+`), then an optional exponent `e|E [sign] D+`,
with no trailing characters. Rounding to binary floating point and the
special tokens inf/NaN are outside the model. -/
def parseFloat (s : List Char) : Option ℚ :=
  match parseSign s with
  | (sign, s1) =>
    let ip := s1.takeWhile isDigitC
    let s2 := s1.dropWhile isDigitC
    let fracAndRest : Option (List Char) × List Char :=
      match s2 with
      | '.' :: r => (some (r.takeWhile isDigitC), r.dropWhile isDigitC)
      | _ => (none, s2)
    let frac := fracAndRest.1
    let s3 := fracAndRest.2
    if ip.isEmpty && (match frac with | some d => d.isEmpty | none => true) then
      none
    else
      let mant : ℚ :=
        sign * ((digitsVal ip : ℚ) +
          (match frac with
           | some d => (digitsVal d : ℚ) / ((10 : ℚ) ^ d.length)
           | none => 0))
      match s3 with
      | [] => some mant
      | e :: r =>
        if e = 'e' ∨ e = 'E' then
          let esign : ℤ × List Char :=
            match r with
            | '+' :: r1 => (1, r1)
            | '-' :: r1 => (-1, r1)
            | r1 => (1, r1)
          let ed := esign.2.takeWhile isDigitC
          let r2 := esign.2.dropWhile isDigitC
          if ed.isEmpty ∨ ¬ r2.isEmpty then none
          else some (mant * (10 : ℚ) ^ (esign.1 * (digitsVal ed : ℤ)))
        else none

/-- Models Rust's `str::parse::<usize>()`: optional leading `+`, then at
least one digit and nothing else, failing on values outside `usize`. -/
def parseUsize (s : List Char) : Option Nat :=
  let body := match s with | '+' :: r => r | r => r
  if body.isEmpty ∨ ¬ (body.all isDigitC) then none
  else if digitsVal body < 2 ^ 64 then some (digitsVal body) else none

/-- Supported compression codecs, from `codec.rs` (all four codec features
enabled). -/
inductive Codec where
  | Zstd
  | Brotli
  | Gzip
  | Deflate
deriving DecidableEq, Repr

/-- Content-Encoding wire name of a codec, from `Codec::content_encoding`. -/
def Codec.content_encoding : Codec → List Char
  | Codec.Zstd => [ 'z', 's', 't', 'd' ]
  | Codec.Brotli => [ 'b', 'r' ]
  | Codec.Gzip => [ 'g', 'z', 'i', 'p' ]
  | Codec.Deflate => [ 'd', 'e', 'f', 'l', 'a', 't', 'e' ]

/-- Priority of a codec (lower is better), from `codec.rs::priority`. -/
def priority : Codec → Nat
  | Codec.Zstd => 0
  | Codec.Brotli => 1
  | Codec.Gzip => 2
  | Codec.Deflate => 3

/-- Parses one Accept-Encoding entry such as `br;q=0.8` into the encoding
token and its quality, from `codec.rs::parse_encoding_with_quality`:
the segment is split once on `;`, the token is trimmed, and the optional
parameter contributes a quality only when, after trimming, it starts with
`q=` or `Q=` and its remainder parses as a float; otherwise 1 is used. -/
def parse_encoding_with_quality (s : List Char) : List Char × ℚ :=
  match splitOnceChar ';' s with
  | (enc, rest) =>
    let encoding := trimL enc
    let quality : ℚ :=
      match rest with
      | none => 1
      | some qpart =>
        let q := trimL qpart
        match (if startsW q [ 'q', '=' ] ∨ startsW q [ 'Q', '=' ] then parseFloat (q.drop 2) else none) with
        | some v => v
        | none => 1
    (encoding, quality)

/-- Alias table of `Codec::from_accept_encoding` (lines 76-93 of
`codec.rs`): maps a token to the codec it names, or to nothing. -/
def codecOf (encoding : List Char) : Option Codec :=
  if encoding = [ 'z', 's', 't', 'd' ] then some Codec.Zstd
  else if encoding = [ 'b', 'r' ] ∨ encoding = [ 'b', 'r', 'o', 't', 'l', 'i' ] then some Codec.Brotli
  else if encoding = [ 'g', 'z', 'i', 'p' ] ∨ encoding = [ 'x', '-', 'g', 'z', 'i', 'p' ] then some Codec.Gzip
  else if encoding = [ 'd', 'e', 'f', 'l', 'a', 't', 'e' ] then some Codec.Deflate
  else none

/-- Best-candidate update of `Codec::from_accept_encoding` (lines 95-109):
a strictly higher quality wins; on equal quality a strictly lower priority
wins; otherwise the current best is kept. -/
def updateBest (best : Option (Codec × ℚ)) (cq : Codec × ℚ) : Option (Codec × ℚ) :=
  match best with
  | none => some cq
  | some (bc, bq) =>
    if cq.2 > bq then some cq
    else if cq.2 = bq then
      if priority cq.1 < priority bc then some cq else some (bc, bq)
    else some (bc, bq)

/-- Body of the `for part in header.split(',')` loop of
`Codec::from_accept_encoding`: trim the segment, parse token and quality,
skip zero quality, look the token up in the alias table, and update the
running best on a hit. -/
def processPart (best : Option (Codec × ℚ)) (part : List Char) : Option (Codec × ℚ) :=
  let p := trimL part
  match parse_encoding_with_quality p with
  | (encoding, quality) =>
    if quality = 0 then best
    else
      match codecOf encoding with
      | none => best
      | some c => updateBest best (c, quality)

/-- Accept-Encoding negotiation, from `Codec::from_accept_encoding`. -/
def Codec.from_accept_encoding (header : List Char) : Option Codec :=
  ((splitChar ',' header).foldl processPart none).map Prod.fst

/-- Candidate entry of one comma-separated segment: its (codec, quality)
pair when the token is recognized and the quality is nonzero, nothing
otherwise. -/
def candOf (part : List Char) : Option (Codec × ℚ) :=
  match parse_encoding_with_quality (trimL part) with
  | (encoding, quality) =>
    if quality = 0 then none
    else (codecOf encoding).map fun c => (c, quality)

/-- Candidate entries of a header: the recognized, nonzero-quality
(codec, quality) pairs of its comma-separated segments, in header order. -/
def candidates (header : List Char) : List (Codec × ℚ) :=
  (splitChar ',' header).filterMap candOf

/-- Header map modelled as an ordered association list; names are the
lowercase strings the `http` crate stores, values are character lists. -/
abbrev HeaderMap : Type := List (String × List Char)

/-- Values of all instances of one header name, in map order, modelling
`HeaderMap::get_all`. -/
def getAll (h : HeaderMap) (n : String) : List (List Char) :=
  (h.filter fun p => p.1 == n).map Prod.snd

/-- First value of a header name, modelling `HeaderMap::get`. -/
def getFirst (h : HeaderMap) (n : String) : Option (List Char) :=
  (h.find? fun p => p.1 == n).map Prod.snd

/-- Key-presence test, modelling `HeaderMap::contains_key`. -/
def containsKey (h : HeaderMap) (n : String) : Bool :=
  h.any fun p => p.1 == n

/-- Removes every value of a header name, modelling `HeaderMap::remove`. -/
def removeH (h : HeaderMap) (n : String) : HeaderMap :=
  h.filter fun p => !(p.1 == n)

/-- Sets a header to one value, modelling `HeaderMap::insert`: the first
existing slot keeps its position with the new value, extra values of the
name are dropped; absent names are appended at the end. -/
def insertH : HeaderMap → String → List Char → HeaderMap
  | [], n, v => [(n, v)]
  | p :: rest, n, v =>
    if p.1 == n then (n, v) :: removeH rest n
    else p :: insertH rest n v

/-- Appends an additional value for a header name, modelling
`HeaderMap::append`. -/
def appendH (h : HeaderMap) (n : String) (v : List Char) : HeaderMap :=
  h ++ [(n, v)]

/-- Checks if a Content-Encoding header is already present, from
`future.rs::has_content_encoding`. -/
def has_content_encoding (h : HeaderMap) : Bool :=
  containsKey h "content-encoding"

/-- Checks if a Content-Range header is present, from
`future.rs::has_content_range`. -/
def has_content_range (h : HeaderMap) : Bool :=
  containsKey h "content-range"

/-- Token test of one Vary value: some comma-separated token, once
trimmed, equals `*` or `accept-encoding` ASCII-case-insensitively
(the inner loop of `future.rs::add_vary_accept_encoding`). -/
def hasVaryToken (v : List Char) : Bool :=
  (splitChar ',' v).any fun t =>
    eqIgnoreAsciiCase (trimL t) [ '*' ] ||
      eqIgnoreAsciiCase (trimL t) [ 'a', 'c', 'c', 'e', 'p', 't', '-', 'e', 'n', 'c', 'o', 'd', 'i', 'n', 'g' ]

/-- Adds `accept-encoding` to the Vary header set unless some existing
Vary instance already carries a `*` or `accept-encoding` token, from
`future.rs::add_vary_accept_encoding`. -/
def add_vary_accept_encoding (h : HeaderMap) : HeaderMap :=
  if (getAll h "vary").any hasVaryToken then h
  else appendH h "vary" [ 'a', 'c', 'c', 'e', 'p', 't', '-', 'e', 'n', 'c', 'o', 'd', 'i', 'n', 'g' ]

/-- Checks if the content type should not be compressed, from
`future.rs::is_uncompressible_content_type`: images other than
`image/svg+xml` and gRPC other than `application/grpc-web`, by prefix. -/
def is_uncompressible_content_type (h : HeaderMap) : Bool :=
  match getFirst h "content-type" with
  | none => false
  | some ct =>
    if startsW ct [ 'i', 'm', 'a', 'g', 'e', '/' ] then
      !(startsW ct [ 'i', 'm', 'a', 'g', 'e', '/', 's', 'v', 'g', '+', 'x', 'm', 'l' ])
    else if startsW ct [ 'a', 'p', 'p', 'l', 'i', 'c', 'a', 't', 'i', 'o', 'n', '/', 'g', 'r', 'p', 'c' ] then
      !(startsW ct [ 'a', 'p', 'p', 'l', 'i', 'c', 'a', 't', 'i', 'o', 'n', '/', 'g', 'r', 'p', 'c', '-', 'w', 'e', 'b' ])
    else false

/-- Checks if the content type requires always flushing, from
`future.rs::is_streaming_content_type`. -/
def is_streaming_content_type (h : HeaderMap) : Bool :=
  match getFirst h "content-type" with
  | none => false
  | some ct =>
    startsW ct [ 't', 'e', 'x', 't', '/', 'e', 'v', 'e', 'n', 't', '-', 's', 't', 'r', 'e', 'a', 'm' ] ||
      startsW ct [ 'a', 'p', 'p', 'l', 'i', 'c', 'a', 't', 'i', 'o', 'n', '/', 'g', 'r', 'p', 'c', '-', 'w', 'e', 'b' ]

/-- Checks if Content-Length parses and is below the minimum size, from
`future.rs::is_below_min_size`. -/
def is_below_min_size (h : HeaderMap) (minSize : Nat) : Bool :=
  match getFirst h "content-length" with
  | none => false
  | some v =>
    match parseUsize v with
    | none => false
    | some len => len < minSize

/-- Body wrapping mode chosen by `wrap_response`: either compression with
a codec and the always-flush flag, or untouched passthrough. -/
inductive BodyMode where
  | compressed (c : Codec) (alwaysFlush : Bool)
  | passthrough
deriving DecidableEq, Repr

/-- Response wrapping, from `future.rs::wrap_response`, restricted to its
observable effect on the header map and the chosen body mode. -/
def wrap_response (headers : HeaderMap) (acceptedCodec : Option Codec) (minSize : Nat) :
    HeaderMap × BodyMode :=
  let dominatedCodec := acceptedCodec.filter fun _ =>
    !(has_content_encoding headers) && !(has_content_range headers) &&
      !(is_uncompressible_content_type headers) && !(is_below_min_size headers minSize)
  match dominatedCodec with
  | some codec =>
    let alwaysFlush :=
      (match getFirst headers "x-accel-buffering" with
       | none => false
       | some v => eqIgnoreAsciiCase v [ 'n', 'o' ]) ||
        is_streaming_content_type headers
    let h1 := insertH headers "content-encoding" (Codec.content_encoding codec)
    let h2 := removeH h1 "content-length"
    let h3 := removeH h2 "accept-ranges"
    let h4 := add_vary_accept_encoding h3
    (h4, BodyMode.compressed codec alwaysFlush)
  | none => (headers, BodyMode.passthrough)

/-- Size of the reusable output buffer, from `body.rs::OUTPUT_BUFFER_SIZE`
(8 KiB). The abstract encoder model below reports byte counts; a
well-behaved encoder writes at most this many bytes per call. -/
def OUTPUT_BUFFER_SIZE : Nat := 8 * 1024

/-- Result of one `encode` call of an encoder capability: an error, or the
numbers of input bytes consumed and output bytes written. -/
inductive EncResult where
  | err
  | ok (consumed written : Nat)
deriving DecidableEq, Repr

/-- Abstract encoder capability (the `Box<dyn EncodeV2 + Send>` of
`body.rs`), modelled as a state machine over an arbitrary state type:
`encode` receives the number of remaining unconsumed input bytes and
reports consumed/written counts; `flush` and `finish` report `none` on
error, otherwise a completion flag and the number of bytes written. -/
structure Encoder (σ : Type) where
  encode : σ → Nat → σ × EncResult
  flush : σ → σ × Option (Bool × Nat)
  finish : σ → σ × Option (Bool × Nat)

/-- State machine for compression, from `body.rs::CompressState`. -/
inductive CompressState where
  | Reading
  | Finishing
  | Trailers
  | Done
deriving DecidableEq, Repr

/-- Mutable state of an actively compressed body (the non-encoder fields
of `body.rs::CompressedBody`), over encoder state type `σ` and trailer
type `τ`. -/
structure CompressedBody (σ τ : Type) where
  encoder : σ
  always_flush : Bool
  state : CompressState
  pending_trailers : Option τ
deriving DecidableEq, Repr

/-- Collects the bytes of a data frame's buffer into a contiguous vector,
from `body.rs::collect_bytes`; the buffer is modelled as its list of
non-contiguous chunks, `chunk()` returning the first chunk and
`remaining()` the total byte count over all chunks. -/
def collect_bytes (chunks : List (List Nat)) : List Nat :=
  let chunk := match chunks with | [] => [] | c :: _ => c
  let remaining := (chunks.map List.length).sum
  let len := min chunk.length remaining
  chunk.take len

/-- Outcome of the chunk-compression routine `compress_chunk`. -/
inductive ChunkOut where
  | ioError
  | pending
  | dataFrame (written : Nat)
deriving DecidableEq, Repr

/-- Encode loop of `CompressedBody::compress_chunk` (body.rs lines
176-197), with explicit fuel: starting from `consumed` input bytes already
consumed and `outAcc` output bytes accumulated, repeatedly invoke `encode`
on the remaining input; accumulate this call's written bytes; stop when
the total consumed reaches the input length, or when this call wrote
nothing and the total consumed is zero. Returns `none` when the fuel runs
out, `some (s, none)` on an encoder error, and `some (s, some (c, w))`
with the final totals on normal exit. -/
def encodeLoop (E : Encoder σ) (inputLen : Nat) :
    Nat → σ → Nat → Nat → Option (σ × Option (Nat × Nat))
  | 0, _, _, _ => none
  | fuel + 1, s, consumed, outAcc =>
    match E.encode s (inputLen - consumed) with
    | (s1, EncResult.err) => some (s1, none)
    | (s1, EncResult.ok c w) =>
      let consumed1 := consumed + c
      let outAcc1 := outAcc + w
      if inputLen ≤ consumed1 then some (s1, some (consumed1, outAcc1))
      else if w = 0 ∧ consumed1 = 0 then some (s1, some (consumed1, outAcc1))
      else encodeLoop E inputLen fuel s1 consumed1 outAcc1

/-- Flush loop of `CompressedBody::compress_chunk` (body.rs lines
200-219), with explicit fuel: repeatedly invoke `flush`, accumulating
written bytes, until it reports completion. Returns `none` when the fuel
runs out and `some (s, none)` on an encoder error. -/
def flushLoop (E : Encoder σ) : Nat → σ → Nat → Option (σ × Option Nat)
  | 0, _, _ => none
  | fuel + 1, s, outAcc =>
    match E.flush s with
    | (s1, none) => some (s1, none)
    | (s1, some (done, w)) =>
      let outAcc1 := outAcc + w
      if done then some (s1, some outAcc1) else flushLoop E fuel s1 outAcc1

/-- Chunk-compression routine, from `CompressedBody::compress_chunk`:
run the encode loop over the whole input, then the flush loop when
`always_flush` is set; report `pending` when the accumulated output is
empty and a data frame of the accumulated bytes otherwise. -/
def compress_chunk (E : Encoder σ) (alwaysFlush : Bool) (fuel : Nat) (s : σ)
    (inputLen : Nat) : Option (σ × ChunkOut) :=
  match encodeLoop E inputLen fuel s 0 0 with
  | none => none
  | some (s1, none) => some (s1, ChunkOut.ioError)
  | some (s1, some (_, outAcc)) =>
    if alwaysFlush then
      match flushLoop E fuel s1 outAcc with
      | none => none
      | some (s2, none) => some (s2, ChunkOut.ioError)
      | some (s2, some outAcc2) =>
        some (s2, if outAcc2 = 0 then ChunkOut.pending else ChunkOut.dataFrame outAcc2)
    else
      some (s1, if outAcc = 0 then ChunkOut.pending else ChunkOut.dataFrame outAcc)

/-- Frame of the inner streaming body: a data frame carrying its buffer's
chunk list, or a trailer frame. -/
inductive InnerFrame (τ : Type) where
  | data (chunks : List (List Nat))
  | trailers (t : τ)
deriving DecidableEq, Repr

/-- One poll outcome of the inner body: not ready, exhausted, a frame, or
an error. -/
inductive InnerEvent (τ : Type) where
  | pending
  | exhausted
  | frame (f : InnerFrame τ)
  | error
deriving DecidableEq, Repr

/-- Inner body modelled as a script of poll outcomes, consumed one per
poll; an empty script keeps reporting exhaustion. -/
def innerPoll : List (InnerEvent τ) → InnerEvent τ × List (InnerEvent τ)
  | [] => (InnerEvent.exhausted, [])
  | e :: rest => (e, rest)

/-- Result of one pull on the compressing stream, mirroring the
`Poll<Option<Result<Frame, _>>>` values of `poll_compressed`. -/
inductive PollOut (τ : Type) where
  | pending
  | dataFrame (written : Nat)
  | trailerFrame (t : τ)
  | exhausted
  | ioError
deriving DecidableEq, Repr

/-- Pull operation of the compressing stream, from
`CompressedBody::poll_compressed`, with explicit fuel bounding the
iterations of its outer loop (and of the synchronous loops it calls);
returns the updated body state, the rest of the inner script, and the
poll outcome, or `none` when the fuel runs out. -/
def poll_compressed (E : Encoder σ) :
    Nat → CompressedBody σ τ → List (InnerEvent τ) →
    Option (CompressedBody σ τ × List (InnerEvent τ) × PollOut τ)
  | 0, _, _ => none
  | fuel + 1, body, inner =>
    match body.state with
    | CompressState.Done => some (body, inner, PollOut.exhausted)
    | CompressState.Trailers =>
      match body.pending_trailers with
      | some t =>
        some ({ body with state := CompressState.Done, pending_trailers := none },
          inner, PollOut.trailerFrame t)
      | none =>
        some ({ body with state := CompressState.Done }, inner, PollOut.exhausted)
    | CompressState.Finishing =>
      match E.finish body.encoder with
      | (s1, none) => some ({ body with encoder := s1 }, inner, PollOut.ioError)
      | (s1, some (done, written)) =>
        if 0 < written then
          let st :=
            if done then
              if body.pending_trailers.isSome then CompressState.Trailers
              else CompressState.Done
            else CompressState.Finishing
          some ({ body with encoder := s1, state := st }, inner, PollOut.dataFrame written)
        else
          if done then
            let st :=
              if body.pending_trailers.isSome then CompressState.Trailers
              else CompressState.Done
            poll_compressed E fuel { body with encoder := s1, state := st } inner
          else
            poll_compressed E fuel { body with encoder := s1 } inner
    | CompressState.Reading =>
      match innerPoll inner with
      | (InnerEvent.pending, inner1) => some (body, inner1, PollOut.pending)
      | (InnerEvent.exhausted, inner1) =>
        poll_compressed E fuel { body with state := CompressState.Finishing } inner1
      | (InnerEvent.error, inner1) => some (body, inner1, PollOut.ioError)
      | (InnerEvent.frame (InnerFrame.trailers t), inner1) =>
        poll_compressed E fuel
          { body with pending_trailers := some t, state := CompressState.Finishing } inner1
      | (InnerEvent.frame (InnerFrame.data chunks), inner1) =>
        let inputBytes := collect_bytes chunks
        match compress_chunk E body.always_flush fuel body.encoder inputBytes.length with
        | none => none
        | some (s1, ChunkOut.ioError) => some ({ body with encoder := s1 }, inner1, PollOut.ioError)
        | some (s1, ChunkOut.pending) => some ({ body with encoder := s1 }, inner1, PollOut.pending)
        | some (s1, ChunkOut.dataFrame w) =>
          some ({ body with encoder := s1 }, inner1, PollOut.dataFrame w)

/-- End-of-stream predicate of a compressed body, from
`CompressionBody::is_end_stream` (the `Compressed` arm). -/
def is_end_stream (body : CompressedBody σ τ) : Bool :=
  body.state == CompressState.Done

/-- Rank of a compression state in the forward order
Reading, Finishing, Trailers, Done. -/
def stateRank : CompressState → Nat
  | CompressState.Reading => 0
  | CompressState.Finishing => 1
  | CompressState.Trailers => 2
  | CompressState.Done => 3

/-- Concrete encoder that consumes all input it is offered and never
produces output (a codec buffering everything internally); flush and
finish complete immediately with no output. -/
def Eabsorb : Encoder Unit where
  encode := fun _ n => ((), EncResult.ok n 0)
  flush := fun _ => ((), some (true, 0))
  finish := fun _ => ((), some (true, 0))

/-- Concrete encoder whose state counts the total bytes fed to `encode`;
it consumes everything offered and echoes the same number of output
bytes. -/
def Ecount : Encoder Nat where
  encode := fun s n => (s + n, EncResult.ok n n)
  flush := fun s => (s, some (true, 0))
  finish := fun s => (s, some (true, 0))

/-- Concrete misbehaving encoder: its first `encode` call consumes one
byte (producing nothing), every later call consumes and produces
nothing. -/
def Estall : Encoder Nat where
  encode := fun s n => if s = 0 then (1, EncResult.ok (min 1 n) 0) else (s, EncResult.ok 0 0)
  flush := fun s => (s, some (true, 0))
  finish := fun s => (s, some (true, 0))

/-- Freshly created compressed-body state (Reading, no deferred trailers,
always-flush off) over the unit encoder state. -/
def bodyReading : CompressedBody Unit Nat where
  encoder := ()
  always_flush := false
  state := CompressState.Reading
  pending_trailers := none

/-- Freshly created compressed-body state over the counting encoder. -/
def bodyReadingN : CompressedBody Nat Nat where
  encoder := 0
  always_flush := false
  state := CompressState.Reading
  pending_trailers := none

/-- Compressed-body state that has reached Done. -/
def bodyDone : CompressedBody Unit Nat where
  encoder := ()
  always_flush := false
  state := CompressState.Done
  pending_trailers := none

/-- Compressed-body state in Trailers with a deferred trailer set. -/
def bodyTrailers : CompressedBody Unit Nat where
  encoder := ()
  always_flush := false
  state := CompressState.Trailers
  pending_trailers := some 7

/-- Claim C1: the claim states that the total bytes fed to `encode` equal
the total bytes of all data frames even when a data frame's buffer holds
several non-contiguous chunks. This theorem evaluates the code at such a
frame: `collect_bytes` keeps only the first chunk of a two-chunk buffer
holding 3 bytes, and a pull over that frame feeds exactly 2 bytes to the
encoder (the counting encoder's final state), dropping the second chunk. -/
theorem collect_bytes_drops_second_chunk :
    collect_bytes [[1, 2], [3]] = [1, 2] ∧
    (([[1, 2], [3]] : List (List Nat)).map List.length).sum = 3 ∧
    poll_compressed Ecount 5 bodyReadingN [InnerEvent.frame (InnerFrame.data [[1, 2], [3]])] =
      some ({ bodyReadingN with encoder := 2 }, [], PollOut.dataFrame 2) := by
  refine ⟨by decide, by decide, by decide⟩

/-- Auxiliary divergence lemma: once the stalling encoder has consumed one
byte of a two-byte input, the encode loop of `compress_chunk` never exits,
because its guard demands a total consumed count of zero. -/
theorem encodeLoop_Estall_stuck : ∀ (fuel outAcc : Nat), encodeLoop Estall 2 fuel 1 1 outAcc = none := by
  intro fuel
  induction fuel with
  | zero => intro outAcc; rfl
  | succ n ih =>
    intro outAcc
    simpa [encodeLoop, Estall] using ih outAcc

/-- Claim C4: the claim states the chunk-compression loop stops as soon as
a single encode call makes zero progress. The code's guard instead
requires the cumulative consumed count to be zero, so with an encoder
whose first call consumes one byte of a two-byte chunk and whose later
calls consume and produce nothing, the loop never terminates: for every
fuel bound the loop is still running. -/
theorem compress_chunk_encode_loop_diverges : ∀ fuel : Nat, encodeLoop Estall 2 fuel 0 0 0 = none := by
  intro fuel
  cases fuel with
  | zero => rfl
  | succ n => simpa [encodeLoop, Estall] using encodeLoop_Estall_stuck n 0

/-- Claim C7: once a compressed body is Done, any pull with nonzero fuel
reports exhaustion, consumes no inner event and leaves the whole state
unchanged; and `is_end_stream` holds exactly when the state is Done. -/
theorem done_pull_exhausts_and_is_end_stream {σ τ : Type} (E : Encoder σ) (fuel : Nat)
    (body : CompressedBody σ τ) (inner : List (InnerEvent τ)) :
    (body.state = CompressState.Done → 0 < fuel →
      poll_compressed E fuel body inner = some (body, inner, PollOut.exhausted)) ∧
    (is_end_stream body = true ↔ body.state = CompressState.Done) := by
  constructor
  · intro hst hf
    match fuel, hf with
    | fuel + 1, _ => simp [poll_compressed, hst]
  · simp [is_end_stream]

/-- Witness for claim C7 at a concrete Done body. -/
theorem done_pull_exhausts_witness :
    poll_compressed Eabsorb 1 bodyDone [] = some (bodyDone, [], PollOut.exhausted) ∧
    is_end_stream bodyDone = true := by
  refine ⟨(done_pull_exhausts_and_is_end_stream Eabsorb 1 bodyDone []).1 rfl (by decide),
    (done_pull_exhausts_and_is_end_stream Eabsorb 1 bodyDone []).2.mpr rfl⟩

/-- Helper: a pull starting in the Done state that completes returns the
body and the inner script unchanged and reports exhaustion. -/
theorem poll_from_done {σ τ : Type} (E : Encoder σ) (fuel : Nat) (enc : σ) (af : Bool)
    (pt : Option τ) (inner inner1 : List (InnerEvent τ)) (body1 : CompressedBody σ τ)
    (out : PollOut τ)
    (h : poll_compressed E fuel ⟨enc, af, CompressState.Done, pt⟩ inner = some (body1, inner1, out)) :
    body1 = ⟨enc, af, CompressState.Done, pt⟩ ∧ inner1 = inner ∧ out = PollOut.exhausted := by
  cases fuel with
  | zero => exact absurd h (by simp [poll_compressed])
  | succ n =>
    simp only [poll_compressed, Option.some.injEq, Prod.mk.injEq] at h
    exact ⟨h.1.symm, h.2.1.symm, h.2.2.symm⟩

/-- Claim C6: every completed pull moves the state machine forward in the
order Reading, Finishing, Trailers, Done (never back), and a pull that
ends in Done starting from a non-Done state has already discharged any
deferred trailer set (it passed through Trailers first). -/
theorem poll_compressed_state_forward {σ τ : Type} (E : Encoder σ) :
    ∀ (fuel : Nat) (body body1 : CompressedBody σ τ) (inner inner1 : List (InnerEvent τ))
      (out : PollOut τ),
    poll_compressed E fuel body inner = some (body1, inner1, out) →
    stateRank body.state ≤ stateRank body1.state ∧
    (body1.state = CompressState.Done → body.state = CompressState.Done ∨ body1.pending_trailers = none) := by
  intro fuel
  induction fuel with
  | zero =>
    intro body body1 inner inner1 out h
    exact absurd h (by simp [poll_compressed])
  | succ n ih =>
    rintro ⟨enc, af, st, pt⟩ body1 inner inner1 out h
    rcases st with _ | _ | _ | _
    · -- Reading
      rcases inner with _ | ⟨ev, rest⟩
      · simp only [poll_compressed, innerPoll] at h
        have hmid := ih ⟨enc, af, CompressState.Finishing, pt⟩ body1 [] inner1 out h
        refine ⟨le_trans (by simp [stateRank]) hmid.1, fun hd => ?_⟩
        rcases hmid.2 hd with h1 | h2
        · simp at h1
        · exact Or.inr h2
      · rcases ev with _ | _ | f | _
        · simp only [poll_compressed, innerPoll, Option.some.injEq, Prod.mk.injEq] at h
          obtain ⟨hb, -, -⟩ := h
          subst hb
          exact ⟨le_refl _, fun hd => by simp at hd⟩
        · simp only [poll_compressed, innerPoll] at h
          have hmid := ih ⟨enc, af, CompressState.Finishing, pt⟩ body1 rest inner1 out h
          refine ⟨le_trans (by simp [stateRank]) hmid.1, fun hd => ?_⟩
          rcases hmid.2 hd with h1 | h2
          · simp at h1
          · exact Or.inr h2
        · rcases f with chunks | t
          · rcases hcc : compress_chunk E af n enc (collect_bytes chunks).length with _ | ⟨s1, co⟩
            · simp only [poll_compressed, innerPoll, hcc] at h
              exact Option.noConfusion h
            · simp only [poll_compressed, innerPoll, hcc] at h
              rcases co with _ | _ | w <;>
                simp only [Option.some.injEq, Prod.mk.injEq] at h <;>
                · obtain ⟨hb, -, -⟩ := h
                  subst hb
                  exact ⟨le_refl _, fun hd => by simp at hd⟩
          · simp only [poll_compressed, innerPoll] at h
            have hmid := ih ⟨enc, af, CompressState.Finishing, some t⟩ body1 rest inner1 out h
            refine ⟨le_trans (by simp [stateRank]) hmid.1, fun hd => ?_⟩
            rcases hmid.2 hd with h1 | h2
            · simp at h1
            · exact Or.inr h2
        · simp only [poll_compressed, innerPoll, Option.some.injEq, Prod.mk.injEq] at h
          obtain ⟨hb, -, -⟩ := h
          subst hb
          exact ⟨le_refl _, fun hd => by simp at hd⟩
    · -- Finishing
      rcases hf : E.finish enc with ⟨s1, fo⟩
      rcases fo with _ | ⟨done, written⟩
      · simp only [poll_compressed, hf, Option.some.injEq, Prod.mk.injEq] at h
        obtain ⟨hb, -, -⟩ := h
        subst hb
        exact ⟨le_refl _, fun hd => by simp at hd⟩
      · by_cases hw : 0 < written
        · rcases done with _ | _
          · simp only [poll_compressed, hf, if_pos hw, Option.some.injEq, Prod.mk.injEq] at h
            obtain ⟨hb, -, -⟩ := h
            subst hb
            exact ⟨le_refl _, fun hd => by simp at hd⟩
          · rcases pt with _ | t
            · simp only [poll_compressed, hf, if_pos hw, Option.isSome_none, Bool.false_eq_true,
                if_false, if_true, Option.some.injEq, Prod.mk.injEq] at h
              obtain ⟨hb, -, -⟩ := h
              subst hb
              exact ⟨by simp [stateRank], fun hd => Or.inr rfl⟩
            · simp only [poll_compressed, hf, if_pos hw, Option.isSome_some, if_true,
                Option.some.injEq, Prod.mk.injEq] at h
              obtain ⟨hb, -, -⟩ := h
              subst hb
              exact ⟨by simp [stateRank], fun hd => by simp at hd⟩
        · rcases done with _ | _
          · simp only [poll_compressed, hf, if_neg hw, Bool.false_eq_true, if_false] at h
            have hmid := ih ⟨s1, af, CompressState.Finishing, pt⟩ body1 inner inner1 out h
            refine ⟨hmid.1, fun hd => ?_⟩
            rcases hmid.2 hd with h1 | h2
            · simp at h1
            · exact Or.inr h2
          · rcases pt with _ | t
            · simp only [poll_compressed, hf, if_neg hw, Option.isSome_none, Bool.false_eq_true,
                if_false, if_true] at h
              obtain ⟨hb, -, -⟩ := poll_from_done E n s1 af none inner inner1 body1 out h
              subst hb
              exact ⟨by simp [stateRank], fun _ => Or.inr rfl⟩
            · simp only [poll_compressed, hf, if_neg hw, Option.isSome_some, if_true] at h
              have hmid := ih ⟨s1, af, CompressState.Trailers, some t⟩ body1 inner inner1 out h
              refine ⟨le_trans (by simp [stateRank]) hmid.1, fun hd => ?_⟩
              rcases hmid.2 hd with h1 | h2
              · simp at h1
              · exact Or.inr h2
    · -- Trailers
      rcases pt with _ | t <;>
        simp only [poll_compressed, Option.some.injEq, Prod.mk.injEq] at h <;>
        obtain ⟨hb, -, -⟩ := h <;> subst hb
      · exact ⟨by simp [stateRank], fun _ => Or.inr rfl⟩
      · exact ⟨by simp [stateRank], fun _ => Or.inr rfl⟩
    · -- Done
      simp only [poll_compressed, Option.some.injEq, Prod.mk.injEq] at h
      obtain ⟨hb, -, -⟩ := h
      subst hb
      exact ⟨le_refl _, fun _ => Or.inl rfl⟩

/-- Witness for claim C6 at a concrete pull: a Trailers-state body with a
deferred trailer set completes to Done with the trailer set discharged. -/
theorem poll_compressed_state_forward_witness :
    stateRank bodyTrailers.state ≤ stateRank bodyDone.state ∧
    (bodyDone.state = CompressState.Done →
      bodyTrailers.state = CompressState.Done ∨ bodyDone.pending_trailers = none) :=
  poll_compressed_state_forward Eabsorb 1 bodyTrailers bodyDone [] [] (PollOut.trailerFrame 7)
    (by decide)

/-- Claim C5 (amended): a pull can report "not yet ready" only from the
Reading state; pulls starting in Finishing, Trailers or Done never
suspend. -/
theorem pending_only_in_reading {σ τ : Type} (E : Encoder σ) :
    ∀ (fuel : Nat) (body body1 : CompressedBody σ τ) (inner inner1 : List (InnerEvent τ)),
    poll_compressed E fuel body inner = some (body1, inner1, PollOut.pending) →
    body.state = CompressState.Reading := by
  intro fuel
  induction fuel with
  | zero =>
    intro body body1 inner inner1 h
    exact absurd h (by simp [poll_compressed])
  | succ n ih =>
    rintro ⟨enc, af, st, pt⟩ body1 inner inner1 h
    rcases st with _ | _ | _ | _
    · rfl
    · rcases hf : E.finish enc with ⟨s1, fo⟩
      rcases fo with _ | ⟨done, written⟩
      · simp [poll_compressed, hf] at h
      · by_cases hw : 0 < written
        · simp [poll_compressed, hf, if_pos hw] at h
        · rcases done with _ | _
          · simp only [poll_compressed, hf, if_neg hw, Bool.false_eq_true, if_false] at h
            exact absurd (ih _ _ _ _ h) (by simp)
          · rcases pt with _ | t
            · simp only [poll_compressed, hf, if_neg hw, Option.isSome_none, Bool.false_eq_true,
                if_false, if_true] at h
              exact absurd (ih _ _ _ _ h) (by simp)
            · simp only [poll_compressed, hf, if_neg hw, Option.isSome_some, if_true] at h
              exact absurd (ih _ _ _ _ h) (by simp)
    · rcases pt with _ | t <;> simp [poll_compressed] at h
    · simp [poll_compressed] at h

/-- Claim C5 counterexample: with an encoder that consumes its input but
produces no bytes, the pull on a one-data-frame inner body returns "not
yet ready" even though the inner body has already delivered its data
frame synchronously, refuting the claim that such a pull completes
without suspending. -/
theorem pending_after_data_frame_counterexample :
    poll_compressed Eabsorb 5 bodyReading [InnerEvent.frame (InnerFrame.data [[0]])] =
      some (bodyReading, [], PollOut.pending) := by decide

/-- Witness for the amended claim C5 at the concrete suspended pull. -/
theorem pending_only_in_reading_witness : bodyReading.state = CompressState.Reading :=
  pending_only_in_reading Eabsorb 5 bodyReading bodyReading
    [InnerEvent.frame (InnerFrame.data [[0]])] [] (by decide)

/-- Helper: header lookup on a cons cell. -/
theorem getAll_cons (p : String × List Char) (t : HeaderMap) (m : String) :
    getAll (p :: t) m = if p.1 = m then p.2 :: getAll t m else getAll t m := by
  by_cases hp : p.1 = m <;> simp [getAll, hp]

/-- Helper: removing a name leaves it with no values. -/
theorem getAll_removeH_self (h : HeaderMap) (n : String) : getAll (removeH h n) n = [] := by
  induction h with
  | nil => rfl
  | cons p t ih =>
    by_cases hp : p.1 = n
    · simpa [removeH, List.filter_cons, hp] using ih
    · simpa [removeH, List.filter_cons, hp, getAll_cons] using ih

/-- Helper: removing a name does not affect the values of other names. -/
theorem getAll_removeH_ne (h : HeaderMap) (n m : String) (hnm : m ≠ n) :
    getAll (removeH h n) m = getAll h m := by
  induction h with
  | nil => rfl
  | cons p t ih =>
    by_cases hp : p.1 = n
    · simpa [removeH, List.filter_cons, hp, getAll_cons, Ne.symm hnm] using ih
    · by_cases hpm : p.1 = m <;>
        simpa [removeH, List.filter_cons, hp, getAll_cons, hpm, hnm] using ih

/-- Helper: after an insert, a name holds exactly the one inserted value. -/
theorem getAll_insertH_self (h : HeaderMap) (n : String) (v : List Char) :
    getAll (insertH h n v) n = [v] := by
  induction h with
  | nil => simp [insertH, getAll_cons, getAll]
  | cons p t ih =>
    by_cases hp : p.1 = n
    · simp [insertH, hp, getAll_cons, getAll_removeH_self]
    · simpa [insertH, hp, getAll_cons] using ih

/-- Helper: an insert does not affect the values of other names. -/
theorem getAll_insertH_ne (h : HeaderMap) (n m : String) (v : List Char) (hnm : m ≠ n) :
    getAll (insertH h n v) m = getAll h m := by
  induction h with
  | nil => simp [insertH, getAll_cons, getAll, Ne.symm hnm]
  | cons p t ih =>
    by_cases hp : p.1 = n
    · simpa [insertH, hp, getAll_cons, Ne.symm hnm] using getAll_removeH_ne t n m hnm
    · by_cases hpm : p.1 = m <;>
        simpa [insertH, hp, getAll_cons, hpm, hnm] using ih

/-- Helper: appending a value for a name extends that name's value list. -/
theorem getAll_appendH_self (h : HeaderMap) (n : String) (v : List Char) :
    getAll (appendH h n v) n = getAll h n ++ [v] := by
  simp [appendH, getAll, List.filter_append]

/-- Helper: appending a value for a name does not affect other names. -/
theorem getAll_appendH_ne (h : HeaderMap) (n m : String) (v : List Char) (hnm : m ≠ n) :
    getAll (appendH h n v) m = getAll h m := by
  simp [appendH, getAll, List.filter_append, Ne.symm hnm]

/-- Helper: the first value of a name is the head of its value list. -/
theorem getFirst_eq_head (h : HeaderMap) (n : String) :
    getFirst h n = (getAll h n).head? := by
  induction h with
  | nil => rfl
  | cons p t ih =>
    by_cases hp : p.1 = n <;> simp [getFirst, getAll_cons, List.find?_cons, hp] <;>
      simpa [getFirst] using ih

/-- Claim C9: the Vary mutation is idempotent. When any existing Vary
instance already holds a comma-separated token case-insensitively equal
to `*` or `accept-encoding`, the header map is left unchanged (so an
existing `*` is untouched); and applying the mutation twice equals
applying it once, so no duplicate `accept-encoding` token is ever
produced. -/
theorem add_vary_idempotent (h : HeaderMap) :
    ((∃ v ∈ getAll h "vary", ∃ t ∈ splitChar ',' v,
        eqIgnoreAsciiCase (trimL t) [ '*' ] = true ∨
        eqIgnoreAsciiCase (trimL t)
          [ 'a', 'c', 'c', 'e', 'p', 't', '-', 'e', 'n', 'c', 'o', 'd', 'i', 'n', 'g' ] = true) →
      add_vary_accept_encoding h = h) ∧
    add_vary_accept_encoding (add_vary_accept_encoding h) = add_vary_accept_encoding h := by
  have hany : ∀ hm : HeaderMap, (getAll hm "vary").any hasVaryToken = true ↔
      (∃ v ∈ getAll hm "vary", ∃ t ∈ splitChar ',' v,
        eqIgnoreAsciiCase (trimL t) [ '*' ] = true ∨
        eqIgnoreAsciiCase (trimL t)
          [ 'a', 'c', 'c', 'e', 'p', 't', '-', 'e', 'n', 'c', 'o', 'd', 'i', 'n', 'g' ] = true) := by
    intro hm
    simp [hasVaryToken, List.any_eq_true]
  constructor
  · intro hex
    unfold add_vary_accept_encoding
    rw [if_pos ((hany h).mpr hex)]
  · by_cases hc : (getAll h "vary").any hasVaryToken = true
    · unfold add_vary_accept_encoding
      rw [if_pos hc, if_pos hc]
    · have h1 : add_vary_accept_encoding h =
          appendH h "vary" [ 'a', 'c', 'c', 'e', 'p', 't', '-', 'e', 'n', 'c', 'o', 'd', 'i', 'n', 'g' ] := by
        unfold add_vary_accept_encoding
        rw [if_neg hc]
      have h2 : (getAll (add_vary_accept_encoding h) "vary").any hasVaryToken = true := by
        rw [h1, getAll_appendH_self, List.any_append]
        have : hasVaryToken
            [ 'a', 'c', 'c', 'e', 'p', 't', '-', 'e', 'n', 'c', 'o', 'd', 'i', 'n', 'g' ] = true := by
          decide
        simp [this]
      rw [h1] at h2 ⊢
      unfold add_vary_accept_encoding
      rw [if_pos h2]

/-- Witness for claim C9 at a header map whose Vary is `*`. -/
theorem add_vary_idempotent_witness :
    add_vary_accept_encoding [( "vary", [ '*' ])] = [( "vary", [ '*' ])] :=
  (add_vary_idempotent [( "vary", [ '*' ])]).1 (by decide)

/-- Helper: no content type starts with both `image/` and
`application/grpc`. -/
theorem startsW_image_grpc_disjoint (ct : List Char) :
    startsW ct [ 'i', 'm', 'a', 'g', 'e', '/' ] = true →
    startsW ct [ 'a', 'p', 'p', 'l', 'i', 'c', 'a', 't', 'i', 'o', 'n', '/', 'g', 'r', 'p', 'c' ] = false := by
  rcases ct with _ | ⟨c, t⟩
  · intro hh
    exact absurd hh (by decide)
  · intro hh
    simp only [startsW, List.isPrefixOf, Bool.and_eq_true, beq_iff_eq] at hh
    obtain ⟨hc, -⟩ := hh
    subst hc
    simp [startsW, List.isPrefixOf]

/-- Helper: the content-type disqualifier is false exactly when the
content type, if present, is not an image other than `image/svg+xml` and
not gRPC other than `application/grpc-web`. -/
theorem is_uncompressible_false_iff (headers : HeaderMap) :
    is_uncompressible_content_type headers = false ↔
      ∀ ct, getFirst headers "content-type" = some ct →
        (startsW ct [ 'i', 'm', 'a', 'g', 'e', '/' ] = true →
          startsW ct [ 'i', 'm', 'a', 'g', 'e', '/', 's', 'v', 'g', '+', 'x', 'm', 'l' ] = true) ∧
        (startsW ct [ 'a', 'p', 'p', 'l', 'i', 'c', 'a', 't', 'i', 'o', 'n', '/', 'g', 'r', 'p', 'c' ] = true →
          startsW ct
            [ 'a', 'p', 'p', 'l', 'i', 'c', 'a', 't', 'i', 'o', 'n', '/', 'g', 'r', 'p', 'c', '-', 'w', 'e', 'b' ] = true) := by
  unfold is_uncompressible_content_type
  rcases hg : getFirst headers "content-type" with _ | ct
  · simp
  · simp only [Option.some.injEq]
    constructor
    · intro hf ct2 hc2
      subst hc2
      by_cases h1 : startsW ct [ 'i', 'm', 'a', 'g', 'e', '/' ] = true
      · rw [if_pos h1] at hf
        refine ⟨fun _ => by simpa using hf, fun hg2 => ?_⟩
        exact absurd hg2 (by simp [startsW_image_grpc_disjoint ct h1])
      · rw [if_neg h1] at hf
        refine ⟨fun hi => absurd hi h1, fun hg2 => ?_⟩
        rw [if_pos hg2] at hf
        simpa using hf
    · intro hall
      obtain ⟨hi, hg2⟩ := hall ct rfl
      by_cases h1 : startsW ct [ 'i', 'm', 'a', 'g', 'e', '/' ] = true
      · rw [if_pos h1]
        simp [hi h1]
      · rw [if_neg h1]
        by_cases h2 : startsW ct
            [ 'a', 'p', 'p', 'l', 'i', 'c', 'a', 't', 'i', 'o', 'n', '/', 'g', 'r', 'p', 'c' ] = true
        · rw [if_pos h2]
          simp [hg2 h2]
        · rw [if_neg h2]

/-- Helper: the minimum-size disqualifier is false exactly when any
parsed Content-Length value is at least the threshold. -/
theorem is_below_min_size_false_iff (headers : HeaderMap) (minSize : Nat) :
    is_below_min_size headers minSize = false ↔
      ∀ len, (getFirst headers "content-length").bind parseUsize = some len → minSize ≤ len := by
  unfold is_below_min_size
  rcases hg : getFirst headers "content-length" with _ | v
  · simp
  · simp only [Option.bind_some]
    rcases hp : parseUsize v with _ | len
    · simp [hp]
    · simp [hp, decide_eq_false_iff_not, Nat.not_lt]

/-- Helper: the body mode chosen by `wrap_response` for a negotiated
codec is compression exactly when the four header disqualifiers are all
false. -/
theorem wrap_response_mode (headers : HeaderMap) (c : Codec) (minSize : Nat) :
    (wrap_response headers (some c) minSize).2 =
      if (!(has_content_encoding headers) && !(has_content_range headers) &&
          !(is_uncompressible_content_type headers) && !(is_below_min_size headers minSize)) then
        BodyMode.compressed c
          ((match getFirst headers "x-accel-buffering" with
            | none => false
            | some v => eqIgnoreAsciiCase v [ 'n', 'o' ]) || is_streaming_content_type headers)
      else BodyMode.passthrough := by
  by_cases hcond : (!(has_content_encoding headers) && !(has_content_range headers) &&
      !(is_uncompressible_content_type headers) && !(is_below_min_size headers minSize)) = true
  · simp [wrap_response, Option.filter, hcond]
  · simp [wrap_response, Option.filter, hcond]

/-- Claim C3: the eligibility decision is compression exactly when a
negotiated codec is present, no Content-Encoding and no Content-Range
header is on the response, the content type (if any) is neither an
image other than `image/svg+xml` nor gRPC other than
`application/grpc-web` (by prefix), and no present, parseable
Content-Length value is strictly below the minimum size (absent or
unparseable Content-Length never disqualifies). -/
theorem wrap_response_compress_iff (headers : HeaderMap) (accepted : Option Codec) (minSize : Nat) :
    (∃ c af, (wrap_response headers accepted minSize).2 = BodyMode.compressed c af) ↔
      (accepted.isSome = true ∧
       containsKey headers "content-encoding" = false ∧
       containsKey headers "content-range" = false ∧
       (∀ ct, getFirst headers "content-type" = some ct →
         (startsW ct [ 'i', 'm', 'a', 'g', 'e', '/' ] = true →
           startsW ct [ 'i', 'm', 'a', 'g', 'e', '/', 's', 'v', 'g', '+', 'x', 'm', 'l' ] = true) ∧
         (startsW ct [ 'a', 'p', 'p', 'l', 'i', 'c', 'a', 't', 'i', 'o', 'n', '/', 'g', 'r', 'p', 'c' ] = true →
           startsW ct
             [ 'a', 'p', 'p', 'l', 'i', 'c', 'a', 't', 'i', 'o', 'n', '/', 'g', 'r', 'p', 'c', '-', 'w', 'e', 'b' ] = true)) ∧
       (∀ len, (getFirst headers "content-length").bind parseUsize = some len → minSize ≤ len)) := by
  rcases accepted with _ | c
  · constructor
    · rintro ⟨c, af, hmode⟩
      exact absurd hmode (by simp [wrap_response, Option.filter])
    · rintro ⟨hsome, -⟩
      exact absurd hsome (by simp)
  · constructor
    · rintro ⟨c2, af, hmode⟩
      rw [wrap_response_mode] at hmode
      by_cases hcond : (!(has_content_encoding headers) && !(has_content_range headers) &&
          !(is_uncompressible_content_type headers) && !(is_below_min_size headers minSize)) = true
      · have h4 := hcond
        simp only [Bool.and_eq_true, Bool.not_eq_true'] at h4
        obtain ⟨⟨⟨h1, h2⟩, h3⟩, h5⟩ := h4
        exact ⟨rfl, h1, h2, (is_uncompressible_false_iff headers).mp h3,
          (is_below_min_size_false_iff headers minSize).mp h5⟩
      · rw [if_neg hcond] at hmode
        exact absurd hmode (by simp)
    · rintro ⟨-, h1, h2, h3, h4⟩
      have hcond : (!(has_content_encoding headers) && !(has_content_range headers) &&
          !(is_uncompressible_content_type headers) && !(is_below_min_size headers minSize)) = true := by
        simp only [Bool.and_eq_true, Bool.not_eq_true']
        exact ⟨⟨⟨h1, h2⟩, (is_uncompressible_false_iff headers).mpr h3⟩,
          (is_below_min_size_false_iff headers minSize).mpr h4⟩
      refine ⟨c, ((match getFirst headers "x-accel-buffering" with
        | none => false
        | some v => eqIgnoreAsciiCase v [ 'n', 'o' ]) || is_streaming_content_type headers), ?_⟩
      rw [wrap_response_mode, if_pos hcond]

/-- Witness for claim C3: an empty header map with a negotiated codec is
eligible for compression. -/
theorem wrap_response_compress_iff_witness :
    ∃ c af, (wrap_response [] (some Codec.Gzip) 100).2 = BodyMode.compressed c af :=
  (wrap_response_compress_iff [] (some Codec.Gzip) 100).mpr
    ⟨rfl, rfl, rfl, fun ct h => Option.noConfusion h, fun len h => Option.noConfusion h⟩

/-- Helper: the header map produced by `wrap_response` on the compression
path is the insert of Content-Encoding, removal of Content-Length and
Accept-Ranges, and the Vary mutation, in that order. -/
theorem wrap_response_headers_eq (headers : HeaderMap) (c : Codec) (minSize : Nat)
    (hcond : (!(has_content_encoding headers) && !(has_content_range headers) &&
      !(is_uncompressible_content_type headers) && !(is_below_min_size headers minSize)) = true) :
    (wrap_response headers (some c) minSize).1 =
      add_vary_accept_encoding
        (removeH (removeH (insertH headers "content-encoding" (Codec.content_encoding c))
          "content-length") "accept-ranges") := by
  simp [wrap_response, Option.filter, hcond]

/-- Claim C8: when compression is selected the response headers change
exactly as follows and nothing else changes: Content-Encoding becomes the
codec's wire name as its only value, Content-Length and Accept-Ranges are
removed, the Vary value list is kept unchanged when some instance already
holds a `*` or `accept-encoding` token and otherwise gets one appended
`accept-encoding` value, and every other header name keeps its exact
value list; on the passthrough path the header map is left completely
unchanged. -/
theorem wrap_response_header_mutation (headers : HeaderMap) (accepted : Option Codec) (minSize : Nat) :
    (∀ c af, (wrap_response headers accepted minSize).2 = BodyMode.compressed c af →
      getAll (wrap_response headers accepted minSize).1 "content-encoding" = [Codec.content_encoding c] ∧
      getAll (wrap_response headers accepted minSize).1 "content-length" = [] ∧
      getAll (wrap_response headers accepted minSize).1 "accept-ranges" = [] ∧
      ((getAll headers "vary").any hasVaryToken = true →
        getAll (wrap_response headers accepted minSize).1 "vary" = getAll headers "vary") ∧
      ((getAll headers "vary").any hasVaryToken = false →
        getAll (wrap_response headers accepted minSize).1 "vary" = getAll headers "vary" ++
          [[ 'a', 'c', 'c', 'e', 'p', 't', '-', 'e', 'n', 'c', 'o', 'd', 'i', 'n', 'g' ]]) ∧
      (∀ n, n ≠ "content-encoding" → n ≠ "content-length" → n ≠ "accept-ranges" → n ≠ "vary" →
        getAll (wrap_response headers accepted minSize).1 n = getAll headers n)) ∧
    ((wrap_response headers accepted minSize).2 = BodyMode.passthrough →
      (wrap_response headers accepted minSize).1 = headers) := by
  constructor
  · intro c af hmode
    rcases accepted with _ | c0
    · exact absurd hmode (by simp [wrap_response, Option.filter])
    · by_cases hcond : (!(has_content_encoding headers) && !(has_content_range headers) &&
        !(is_uncompressible_content_type headers) && !(is_below_min_size headers minSize)) = true
      · rw [wrap_response_mode, if_pos hcond] at hmode
        have hc0 : c0 = c := by
          cases hmode
          rfl
        subst hc0
        rw [wrap_response_headers_eq headers c0 minSize hcond]
        have hv3 : getAll (removeH (removeH (insertH headers "content-encoding"
            (Codec.content_encoding c0)) "content-length") "accept-ranges") "vary" =
            getAll headers "vary" := by
          rw [getAll_removeH_ne _ _ _ (by decide), getAll_removeH_ne _ _ _ (by decide),
            getAll_insertH_ne _ _ _ _ (by decide)]
        have hce3 : getAll (removeH (removeH (insertH headers "content-encoding"
            (Codec.content_encoding c0)) "content-length") "accept-ranges") "content-encoding" =
            [Codec.content_encoding c0] := by
          rw [getAll_removeH_ne _ _ _ (by decide), getAll_removeH_ne _ _ _ (by decide),
            getAll_insertH_self]
        have hcl3 : getAll (removeH (removeH (insertH headers "content-encoding"
            (Codec.content_encoding c0)) "content-length") "accept-ranges") "content-length" = [] := by
          rw [getAll_removeH_ne _ _ _ (by decide), getAll_removeH_self]
        have har3 : getAll (removeH (removeH (insertH headers "content-encoding"
            (Codec.content_encoding c0)) "content-length") "accept-ranges") "accept-ranges" = [] := by
          rw [getAll_removeH_self]
        have hn3 : ∀ n : String, n ≠ "content-encoding" → n ≠ "content-length" →
            n ≠ "accept-ranges" →
            getAll (removeH (removeH (insertH headers "content-encoding"
              (Codec.content_encoding c0)) "content-length") "accept-ranges") n =
            getAll headers n := by
          intro n hn1 hn2 hn3
          rw [getAll_removeH_ne _ _ _ hn3, getAll_removeH_ne _ _ _ hn2,
            getAll_insertH_ne _ _ _ _ hn1]
        have hadd : ∀ m : String, m ≠ "vary" →
            getAll (add_vary_accept_encoding (removeH (removeH (insertH headers "content-encoding"
              (Codec.content_encoding c0)) "content-length") "accept-ranges")) m =
            getAll (removeH (removeH (insertH headers "content-encoding"
              (Codec.content_encoding c0)) "content-length") "accept-ranges") m := by
          intro m hm
          unfold add_vary_accept_encoding
          by_cases hcv : (getAll (removeH (removeH (insertH headers "content-encoding"
              (Codec.content_encoding c0)) "content-length") "accept-ranges") "vary").any
              hasVaryToken = true
          · rw [if_pos hcv]
          · rw [if_neg hcv, getAll_appendH_ne _ _ _ _ hm]
        refine ⟨by rw [hadd _ (by decide), hce3], by rw [hadd _ (by decide), hcl3],
          by rw [hadd _ (by decide), har3], ?_, ?_, ?_⟩
        · intro hv
          unfold add_vary_accept_encoding
          rw [if_pos (by rw [hv3]; exact hv), hv3]
        · intro hv
          unfold add_vary_accept_encoding
          rw [if_neg (by rw [hv3, hv]; exact Bool.false_ne_true), getAll_appendH_self, hv3]
        · intro n hn1 hn2 hn3x hn4
          rw [hadd _ hn4, hn3 _ hn1 hn2 hn3x]
      · rw [wrap_response_mode, if_neg hcond] at hmode
        exact absurd hmode (by simp)
  · intro hmode
    rcases accepted with _ | c0
    · simp [wrap_response, Option.filter]
    · by_cases hcond : (!(has_content_encoding headers) && !(has_content_range headers) &&
        !(is_uncompressible_content_type headers) && !(is_below_min_size headers minSize)) = true
      · rw [wrap_response_mode, if_pos hcond] at hmode
        exact absurd hmode (by simp)
      · simp [wrap_response, Option.filter, hcond]

/-- Witness for claim C8 at a concrete compressed response: the
Accept-Ranges header is removed. -/
theorem wrap_response_header_mutation_witness :
    getAll (wrap_response [( "accept-ranges", [ 'b', 'y', 't', 'e', 's' ])]
      (some Codec.Gzip) 0).1 "accept-ranges" = [] :=
  (((wrap_response_header_mutation [( "accept-ranges", [ 'b', 'y', 't', 'e', 's' ])]
    (some Codec.Gzip) 0).1 Codec.Gzip false (by decide)).2.2.1)

/-- Helper: a strictly higher quality replaces the running best. -/
theorem updateBest_gt {bc xc : Codec} {bq xq : ℚ} (h1 : xq > bq) :
    updateBest (some (bc, bq)) (xc, xq) = some (xc, xq) := by
  simp [updateBest, h1]

/-- Helper: on equal quality a strictly lower priority replaces the
running best. -/
theorem updateBest_eq_lt {bc xc : Codec} {bq xq : ℚ} (h2 : xq = bq)
    (h3 : priority xc < priority bc) :
    updateBest (some (bc, bq)) (xc, xq) = some (xc, xq) := by
  simp [updateBest, h2, h3]

/-- Helper: on equal quality without a lower priority the running best is
kept. -/
theorem updateBest_eq_ge {bc xc : Codec} {bq xq : ℚ} (h2 : xq = bq)
    (h3 : ¬ priority xc < priority bc) :
    updateBest (some (bc, bq)) (xc, xq) = some (bc, bq) := by
  simp [updateBest, h2, h3]

/-- Helper: a strictly lower quality leaves the running best unchanged. -/
theorem updateBest_lt {bc xc : Codec} {bq xq : ℚ} (h1 : xq < bq) :
    updateBest (some (bc, bq)) (xc, xq) = some (bc, bq) := by
  simp [updateBest, not_lt_of_gt h1, ne_of_lt h1]

/-- Helper: the loop body over one segment equals the candidate update:
segments with no candidate leave the best unchanged, segments with a
candidate feed it to the best-update step. -/
theorem processPart_eq_candOf (best : Option (Codec × ℚ)) (part : List Char) :
    processPart best part =
      match candOf part with
      | none => best
      | some cq => updateBest best cq := by
  unfold processPart candOf
  rcases hq : parse_encoding_with_quality (trimL part) with ⟨e, q⟩
  by_cases h0 : q = 0
  · simp [hq, h0]
  · rcases hc : codecOf e with _ | c <;> simp [hq, h0, hc]

/-- Helper: folding the loop body over the segments equals folding the
best-update step over the candidate list. -/
theorem foldl_processPart_eq (parts : List (List Char)) :
    ∀ b : Option (Codec × ℚ),
    parts.foldl processPart b = (parts.filterMap candOf).foldl updateBest b := by
  induction parts with
  | nil => intro b; rfl
  | cons part t ih =>
    intro b
    rw [List.foldl_cons, processPart_eq_candOf]
    rcases hc : candOf part with _ | cq
    · simp [List.filterMap_cons, hc, ih]
    · simp [List.filterMap_cons, hc, List.foldl_cons, ih]

/-- Helper: a best-update step never discards an existing best. -/
theorem updateBest_isSome (p cq : Codec × ℚ) : ∃ r, updateBest (some p) cq = some r := by
  rcases p with ⟨bc, bq⟩
  rcases cq with ⟨xc, xq⟩
  rcases lt_trichotomy xq bq with h | h | h
  · exact ⟨(bc, bq), updateBest_lt h⟩
  · by_cases h3 : priority xc < priority bc
    · exact ⟨(xc, xq), updateBest_eq_lt h h3⟩
    · exact ⟨(bc, bq), updateBest_eq_ge h h3⟩
  · exact ⟨(xc, xq), updateBest_gt h⟩

/-- Helper: folding the best-update step from an existing best always
keeps some best. -/
theorem foldl_updateBest_isSome (l : List (Codec × ℚ)) :
    ∀ p : Codec × ℚ, ∃ r, l.foldl updateBest (some p) = some r := by
  induction l with
  | nil => intro p; exact ⟨p, rfl⟩
  | cons x t ih =>
    intro p
    obtain ⟨p1, hp1⟩ := updateBest_isSome p x
    rw [List.foldl_cons, hp1]
    exact ih p1

/-- Helper: invariant of the best-update fold. When the fold of the
best-update step over a candidate list starting from an existing best
returns a pair, that pair is the start or a list entry, its quality is
the maximum of the start's and all entries' qualities, and among holders
of that maximal quality it has minimal priority. -/
theorem foldl_updateBest_spec (l : List (Codec × ℚ)) :
    ∀ (p : Codec × ℚ) (c : Codec) (q : ℚ),
    l.foldl updateBest (some p) = some (c, q) →
    ((c, q) = p ∨ (c, q) ∈ l) ∧
    p.2 ≤ q ∧ (∀ x ∈ l, x.2 ≤ q) ∧
    (q = p.2 → priority c ≤ priority p.1) ∧
    (∀ x ∈ l, q = x.2 → priority c ≤ priority x.1) := by
  induction l with
  | nil =>
    intro p c q h
    simp only [List.foldl_nil, Option.some.injEq] at h
    subst h
    exact ⟨Or.inl rfl, le_refl q, by simp, fun _ => le_refl (priority c), by simp⟩
  | cons x t ih =>
    rintro ⟨bc, bq⟩ c q h
    rcases x with ⟨xc, xq⟩
    rw [List.foldl_cons] at h
    rcases lt_trichotomy xq bq with h1 | h1 | h1
    · rw [updateBest_lt h1] at h
      obtain ⟨hmem, hle, hall, hpr, hprall⟩ := ih (bc, bq) c q h
      refine ⟨?_, hle, ?_, hpr, ?_⟩
      · rcases hmem with he | hm
        · exact Or.inl he
        · exact Or.inr (List.mem_cons_of_mem _ hm)
      · intro y hy
        rcases List.mem_cons.mp hy with rfl | hyt
        · exact le_trans (le_of_lt h1) hle
        · exact hall y hyt
      · intro y hy hqy
        rcases List.mem_cons.mp hy with rfl | hyt
        · exact absurd hqy (ne_of_gt (lt_of_lt_of_le h1 hle))
        · exact hprall y hyt hqy
    · by_cases h3 : priority xc < priority bc
      · rw [updateBest_eq_lt h1 h3] at h
        obtain ⟨hmem, hle, hall, hpr, hprall⟩ := ih (xc, xq) c q h
        refine ⟨?_, h1 ▸ hle, ?_, ?_, ?_⟩
        · rcases hmem with he | hm
          · exact Or.inr (by rw [he]; exact List.mem_cons_self _ _)
          · exact Or.inr (List.mem_cons_of_mem _ hm)
        · intro y hy
          rcases List.mem_cons.mp hy with rfl | hyt
          · exact hle
          · exact hall y hyt
        · intro hq2
          exact le_trans (hpr (hq2.trans h1.symm)) (le_of_lt h3)
        · intro y hy hqy
          rcases List.mem_cons.mp hy with rfl | hyt
          · exact hpr hqy
          · exact hprall y hyt hqy
      · rw [updateBest_eq_ge h1 h3] at h
        obtain ⟨hmem, hle, hall, hpr, hprall⟩ := ih (bc, bq) c q h
        refine ⟨?_, hle, ?_, hpr, ?_⟩
        · rcases hmem with he | hm
          · exact Or.inl he
          · exact Or.inr (List.mem_cons_of_mem _ hm)
        · intro y hy
          rcases List.mem_cons.mp hy with rfl | hyt
          · exact h1.trans_le hle
          · exact hall y hyt
        · intro y hy hqy
          rcases List.mem_cons.mp hy with rfl | hyt
          · exact le_trans (hpr (hqy.trans h1)) (le_of_not_lt h3)
          · exact hprall y hyt hqy
    · rw [updateBest_gt h1] at h
      obtain ⟨hmem, hle, hall, hpr, hprall⟩ := ih (xc, xq) c q h
      refine ⟨?_, le_trans (le_of_lt h1) hle, ?_, ?_, ?_⟩
      · rcases hmem with he | hm
        · exact Or.inr (by rw [he]; exact List.mem_cons_self _ _)
        · exact Or.inr (List.mem_cons_of_mem _ hm)
      · intro y hy
        rcases List.mem_cons.mp hy with rfl | hyt
        · exact hle
        · exact hall y hyt
      · intro hq2
        exact absurd hq2 (ne_of_gt (lt_of_lt_of_le h1 hle))
      · intro y hy hqy
        rcases List.mem_cons.mp hy with rfl | hyt
        · exact hpr hqy
        · exact hprall y hyt hqy

/-- Helper: negotiation returns nothing exactly when no recognized,
nonzero-quality candidate exists. -/
theorem from_accept_encoding_none_iff (h : List Char) :
    Codec.from_accept_encoding h = none ↔ candidates h = [] := by
  unfold Codec.from_accept_encoding candidates
  rw [foldl_processPart_eq]
  rcases hc : (splitChar ',' h).filterMap candOf with _ | ⟨x, t⟩
  · simp
  · rw [List.foldl_cons]
    have hx : updateBest none x = some x := rfl
    rw [hx]
    obtain ⟨r, hr⟩ := foldl_updateBest_isSome t x
    simp [hr]

/-- Helper: a negotiated codec appears among the candidates with a
quality that is maximal, and with minimal priority among the candidates
of that maximal quality. -/
theorem from_accept_encoding_spec_some (h : List Char) (c : Codec)
    (hf : Codec.from_accept_encoding h = some c) :
    ∃ q, (c, q) ∈ candidates h ∧ (∀ x ∈ candidates h, x.2 ≤ q) ∧
      (∀ x ∈ candidates h, x.2 = q → priority c ≤ priority x.1) := by
  unfold Codec.from_accept_encoding at hf
  rw [foldl_processPart_eq] at hf
  rcases hc : (splitChar ',' h).filterMap candOf with _ | ⟨x, t⟩
  · rw [hc] at hf
    exact Option.noConfusion hf
  · rw [hc, List.foldl_cons] at hf
    have hx : updateBest none x = some x := rfl
    rw [hx] at hf
    obtain ⟨⟨c1, q1⟩, hr⟩ := foldl_updateBest_isSome t x
    rw [hr] at hf
    simp only [Option.map_some', Option.some.injEq] at hf
    subst hf
    obtain ⟨hmem, hle, hall, hpr, hprall⟩ := foldl_updateBest_spec t x c1 q1 hr
    refine ⟨q1, ?_, ?_, ?_⟩
    · unfold candidates
      rw [hc]
      rcases hmem with he | hm
      · rw [he]
        exact List.mem_cons_self _ _
      · exact List.mem_cons_of_mem _ hm
    · intro y hy
      unfold candidates at hy
      rw [hc] at hy
      rcases List.mem_cons.mp hy with rfl | hyt
      · exact hle
      · exact hall y hyt
    · intro y hy hqy
      unfold candidates at hy
      rw [hc] at hy
      rcases List.mem_cons.mp hy with rfl | hyt
      · exact hpr hqy.symm
      · exact hprall y hyt hqy.symm

/-- Helper: codecs are determined by their priority rank. -/
theorem priority_injective (a b : Codec) (hp : priority a = priority b) : a = b := by
  cases a <;> cases b <;> first | rfl | simpa [priority] using hp

/-- Helper: negotiation depends only on the membership of the candidate
list, so headers with the same candidates (in any order) negotiate the
same codec. -/
theorem from_accept_encoding_mem_congr (h1 h2 : List Char)
    (hsub : ∀ x ∈ candidates h1, x ∈ candidates h2)
    (hsub2 : ∀ x ∈ candidates h2, x ∈ candidates h1) :
    Codec.from_accept_encoding h1 = Codec.from_accept_encoding h2 := by
  rcases hf1 : Codec.from_accept_encoding h1 with _ | c1
  · have hc1 : candidates h1 = [] := (from_accept_encoding_none_iff h1).mp hf1
    rcases hf2 : Codec.from_accept_encoding h2 with _ | c2
    · rfl
    · obtain ⟨q2, hm2, -, -⟩ := from_accept_encoding_spec_some h2 c2 hf2
      have hmem := hsub2 _ hm2
      rw [hc1] at hmem
      exact absurd hmem (List.not_mem_nil _)
  · obtain ⟨q1, hm1, hall1, hpr1⟩ := from_accept_encoding_spec_some h1 c1 hf1
    rcases hf2 : Codec.from_accept_encoding h2 with _ | c2
    · have hc2 : candidates h2 = [] := (from_accept_encoding_none_iff h2).mp hf2
      have hmem := hsub _ hm1
      rw [hc2] at hmem
      exact absurd hmem (List.not_mem_nil _)
    · obtain ⟨q2, hm2, hall2, hpr2⟩ := from_accept_encoding_spec_some h2 c2 hf2
      have hq12 : q1 ≤ q2 := hall2 _ (hsub _ hm1)
      have hq21 : q2 ≤ q1 := hall1 _ (hsub2 _ hm2)
      have hq : q1 = q2 := le_antisymm hq12 hq21
      have hp12 : priority c2 ≤ priority c1 := hpr2 _ (hsub _ hm1) hq
      have hp21 : priority c1 ≤ priority c2 := hpr1 _ (hsub2 _ hm2) hq.symm
      rw [priority_injective c1 c2 (le_antisymm hp21 hp12)]

/-- Claim C2: for every accept-encoding header, negotiation returns
nothing exactly when no recognized nonzero-quality candidate exists;
a returned codec occurs among the candidates with the strictly maximal
quality and, among candidates sharing that quality, the lowest priority
rank; and the result depends only on which candidates occur, so it is
independent of token order and unaffected by unrecognized tokens. -/
theorem from_accept_encoding_correct (h : List Char) :
    (Codec.from_accept_encoding h = none ↔ candidates h = []) ∧
    (∀ c, Codec.from_accept_encoding h = some c →
      ∃ q, (c, q) ∈ candidates h ∧ (∀ x ∈ candidates h, x.2 ≤ q) ∧
        (∀ x ∈ candidates h, x.2 = q → priority c ≤ priority x.1)) ∧
    (∀ h2 : List Char, (∀ x ∈ candidates h, x ∈ candidates h2) →
      (∀ x ∈ candidates h2, x ∈ candidates h) →
      Codec.from_accept_encoding h = Codec.from_accept_encoding h2) :=
  ⟨from_accept_encoding_none_iff h,
    fun c hc => from_accept_encoding_spec_some h c hc,
    fun h2 hs1 hs2 => from_accept_encoding_mem_congr h h2 hs1 hs2⟩

/-- Witness for claim C2: reordering the tokens of a header does not
change the negotiated codec. -/
theorem from_accept_encoding_correct_witness :
    Codec.from_accept_encoding ( "gzip, br".data ) = Codec.from_accept_encoding ( "br, gzip".data ) :=
  (from_accept_encoding_correct ( "gzip, br".data )).2.2 ( "br, gzip".data ) (by decide) (by decide)

/-- Helper: every candidate has nonzero quality (zero-quality segments
are discarded before recognition). -/
theorem candidates_quality_ne_zero (h : List Char) :
    ∀ x ∈ candidates h, x.2 ≠ 0 := by
  intro x hx
  unfold candidates at hx
  obtain ⟨part, -, hpart⟩ := List.mem_filterMap.mp hx
  unfold candOf at hpart
  rcases hq : parse_encoding_with_quality (trimL part) with ⟨e, q⟩
  rw [hq] at hpart
  have hpart2 : (if q = 0 then none else Option.map (fun c => (c, q)) (codecOf e)) = some x := hpart
  by_cases h0 : q = 0
  · rw [if_pos h0] at hpart2
    exact Option.noConfusion hpart2
  · rw [if_neg h0] at hpart2
    obtain ⟨c2, -, hc2⟩ := Option.map_eq_some'.mp hpart2
    rw [← hc2]
    exact h0

/-- Claim C10 counterexample: the quality resolved for the segment
`gzip;q=2` is 2, which lies outside the interval [0,1], refuting the
claim that every resolved quality lies in [0,1]. -/
theorem quality_can_exceed_one :
    (parse_encoding_with_quality ( "gzip;q=2".data )).2 = 2 ∧
    ¬ (parse_encoding_with_quality ( "gzip;q=2".data )).2 ≤ 1 := by
  have hsp : splitOnceChar ';' ( "gzip;q=2".data ) = ([ 'g', 'z', 'i', 'p' ], some [ 'q', '=', '2' ]) := by
    decide
  have htr : trimL [ 'q', '=', '2' ] = [ 'q', '=', '2' ] := by decide
  have hqp : startsW [ 'q', '=', '2' ] [ 'q', '=' ] = true := by decide
  have hps : parseSign [ '2' ] = (1, [ '2' ]) := by decide
  have htw : List.takeWhile isDigitC [ '2' ] = [ '2' ] := by decide
  have hdw : List.dropWhile isDigitC [ '2' ] = [] := by decide
  have hdv : digitsVal [ '2' ] = 2 := by decide
  have hpf : parseFloat [ '2' ] = some 2 := by
    unfold parseFloat
    rw [hps]
    simp [htw, hdw, hdv]
  have hmain : (parse_encoding_with_quality ( "gzip;q=2".data )).2 = 2 := by
    unfold parse_encoding_with_quality
    rw [hsp]
    simp [htr, hqp, hpf]
  refine ⟨hmain, ?_⟩
  rw [hmain]
  norm_num

/-- Claim C10 (amended): a segment with no quality parameter, or whose
parameter is not a case-insensitive `q=`/`Q=` float, resolves to quality
exactly 1; the resolved quality is not clamped to [0,1]; and a selected
codec always comes from a candidate of nonzero quality, so zero-quality
entries are never selected. -/
theorem quality_default_and_zero_never_selected :
    (∀ s : List Char, (splitOnceChar ';' s).2 = none →
      (parse_encoding_with_quality s).2 = 1) ∧
    (∀ s r, (splitOnceChar ';' s).2 = some r →
      (if startsW (trimL r) [ 'q', '=' ] ∨ startsW (trimL r) [ 'Q', '=' ] then
        parseFloat ((trimL r).drop 2) else none) = none →
      (parse_encoding_with_quality s).2 = 1) ∧
    (∀ h c, Codec.from_accept_encoding h = some c →
      ∃ q, (c, q) ∈ candidates h ∧ q ≠ 0) := by
  refine ⟨?_, ?_, ?_⟩
  · intro s hnone
    unfold parse_encoding_with_quality
    rcases hsp : splitOnceChar ';' s with ⟨enc, rest⟩
    rw [hsp] at hnone
    simp only at hnone
    subst hnone
    simp
  · intro s r hsome hnone
    unfold parse_encoding_with_quality
    rcases hsp : splitOnceChar ';' s with ⟨enc, rest⟩
    rw [hsp] at hsome
    simp only at hsome
    subst hsome
    simp [hnone]
  · intro h c hf
    obtain ⟨q, hm, -, -⟩ := from_accept_encoding_spec_some h c hf
    exact ⟨q, hm, candidates_quality_ne_zero h _ hm⟩

/-- Witness for the amended claim C10: a segment without a quality
parameter resolves to quality 1. -/
theorem quality_default_witness :
    (parse_encoding_with_quality ( "gzip".data )).2 = 1 :=
  quality_default_and_zero_never_selected.1 ( "gzip".data ) (by decide)
